import Mathlib

/-!
Shallow embedding of the Hill cipher engine of this repository.

The authoritative implementation is the class HillCipher in src/cipher.py,
instantiated (as everywhere in the repository) with alphabet_size = 26 and
alphabet 'A'..'Z'.  Strings are modelled as List Char, Python ints as ℤ,
numpy integer matrices as Matrix (Fin n) (Fin n) ℤ (for square matrices) or
List (List ℤ) (at the shape-checking boundary).  np.linalg.det followed by
int(np.round ..) is modelled as the exact integer determinant Matrix.det,
which is the value it computes on integer matrices.  A Python function that
can raise is modelled as returning an Option, with none for the raising
branches.  Python's % and // on ints are floor-mod and floor-div, i.e.
Int.fmod and Int.fdiv; on a positive modulus % is written with Int.emod
(the two agree there).
-/

namespace HillCipherSpec

/-- Models Python's str.upper applied to one character (src/cipher.py line 38).
Python's upper is Unicode aware; this model is exact on ASCII characters and
on the one non-ASCII letter used in this development, 'é' (U+00E9, uppercased
by Python to 'É', U+00C9).  Char.toUpper is the ASCII uppercasing map and
leaves every other character unchanged, as does this model. -/
def pyToUpper (c : Char) : Char :=
  if c == 'é' then 'É' else c.toUpper

/-- Models Python's str.isalpha on one character (src/cipher.py line 40).
Python's isalpha is true for every Unicode letter; this model is exact on
ASCII characters (where it is A-Z or a-z, i.e. Char.isAlpha) and on the two
non-ASCII letters used in this development, 'é' and 'É'. -/
def pyIsAlpha (c : Char) : Bool :=
  c.isAlpha || c == 'é' || c == 'É'

/-- HillCipher.text_to_numbers (src/cipher.py lines 28-41): uppercase the
text, remove spaces, keep only the characters for which Python's isalpha is
true, and map each to ord(char) - ord('A'). -/
def text_to_numbers (text : List Char) : List ℤ :=
  (((text.map pyToUpper).filter (fun c => c != ' ')).filter pyIsAlpha).map
    (fun c => (c.toNat : ℤ) - 65)

/-- HillCipher.numbers_to_text (src/cipher.py lines 43-53): each number num
becomes chr(num + ord('A')).  No reduction modulo 26 is performed.  The model
is exact for num + 65 in the range of valid code points, which covers every
value the repository feeds it (and the inputs of every theorem below). -/
def numbers_to_text (numbers : List ℤ) : List Char :=
  numbers.map (fun num => Char.ofNat (num + 65).toNat)

/-- HillCipher._nums_to_text from src/backend/hillcipher.py (lines 33-34):
chr(n % self.m + 65) with m = 26, i.e. unlike numbers_to_text above it
reduces modulo 26 before the lookup. -/
def backend_nums_to_text (nums : List ℤ) : List Char :=
  nums.map (fun n => Char.ofNat (n % 26 + 65).toNat)

/-- HillCipher.pad_text (src/cipher.py lines 55-68): append 'X' to the text
until its length is divisible by block_size.  The while loop appends exactly
(block_size - len % block_size) % block_size characters; it is only ever
called with a positive block_size (Python raises on block_size = 0). -/
def pad_text (text : List Char) (block_size : ℕ) : List Char :=
  text ++ List.replicate ((block_size - text.length % block_size) % block_size) 'X'

/-- HillCipher.create_text_blocks (src/cipher.py lines 70-87): slice the list
into consecutive chunks of block_size, keeping only the full chunks (the
final short chunk, if any, is dropped by the `if len(block) == block_size`
guard).  Only called with positive block_size. -/
def create_text_blocks (numbers : List ℤ) (block_size : ℕ) : List (List ℤ) :=
  if h : 0 < block_size ∧ block_size ≤ numbers.length then
    numbers.take block_size :: create_text_blocks (numbers.drop block_size) block_size
  else []
termination_by numbers.length
decreasing_by
  have h1 := h.1
  have h2 := h.2
  simp only [List.length_drop]
  omega

/-- HillCipher.gcd_extended (src/cipher.py lines 89-104), verbatim:
if a == 0 return (b, 0, 1); otherwise recurse on (b % a, a) with Python's
floor-mod (Int.fmod) and build x = y1 - (b // a) * x1 (floor-div Int.fdiv),
y = x1.  Note that no absolute values are taken anywhere: on negative input
the returned first component can be negative. -/
def gcd_extended (a b : ℤ) : ℤ × ℤ × ℤ :=
  if _h : a = 0 then (b, 0, 1)
  else
    let r := gcd_extended (Int.fmod b a) a
    (r.1, r.2.2 - (Int.fdiv b a) * r.2.1, r.2.1)
termination_by a.natAbs
decreasing_by
  rcases Int.lt_or_lt_of_ne _h with hneg | hpos
  · obtain ⟨am, ha⟩ := Int.eq_negSucc_of_lt_zero hneg
    subst ha
    rcases b with ⟨bn⟩ | bm
    · rcases bn with _ | bn
      · show (Int.fmod 0 (Int.negSucc am)).natAbs < (Int.negSucc am).natAbs
        rw [Int.zero_fmod]
        simp [Int.natAbs_negSucc]
      · show (Int.subNatNat (bn % (am + 1)) am).natAbs < (Int.negSucc am).natAbs
        rw [Int.subNatNat_eq_coe]
        have := Nat.mod_lt bn (show 0 < am + 1 by omega)
        simp only [Int.natAbs_negSucc]
        omega
    · show (-(((bm + 1) % (am + 1) : ℕ) : ℤ)).natAbs < (Int.negSucc am).natAbs
      have := Nat.mod_lt (bm + 1) (show 0 < am + 1 by omega)
      simp only [Int.natAbs_neg, Int.natAbs_ofNat, Int.natAbs_negSucc]
      omega
  · have h1 := Int.fmod_nonneg' b hpos
    have h2 := Int.fmod_lt_of_pos b hpos
    omega

/-- HillCipher.mod_inverse (src/cipher.py lines 106-120): run gcd_extended on
(a, m) as given (a is NOT reduced mod m first), return None when the first
component differs from 1, else (x % m + m) % m.  (m is positive in every
call, so % here is the nonnegative remainder.) -/
def mod_inverse (a m : ℤ) : Option ℤ :=
  let r := gcd_extended a m
  if r.1 ≠ 1 then none else some ((r.2.1 % m + m) % m)

/-- HillCipher.is_valid_key_matrix restricted to an already-square matrix
(src/cipher.py lines 154-170, after the shape check): the exact integer
determinant (int(np.round(np.linalg.det ..)) on an integer matrix) reduced
mod 26 must be coprime to 26. -/
def is_valid_key {n : ℕ} (K : Matrix (Fin n) (Fin n) ℤ) : Bool :=
  Int.gcd (K.det % 26) 26 == 1

/-- Number of rows of a matrix given as a list of rows (numpy shape[0]). -/
def matRows (m : List (List ℤ)) : ℕ := m.length

/-- Number of columns of a rectangular matrix given as a list of rows
(numpy shape[1]). -/
def matCols (m : List (List ℤ)) : ℕ := (m.headD []).length

/-- Bridge from the list-of-rows representation to Matrix (entries read
positionally; out-of-range reads default to 0, which never happens on a
rectangular matrix read inside its shape). -/
def toMatrix (m : List (List ℤ)) (n : ℕ) : Matrix (Fin n) (Fin n) ℤ :=
  Matrix.of fun i j => (m.getD (i : ℕ) []).getD (j : ℕ) 0

/-- HillCipher.is_valid_key_matrix (src/cipher.py lines 154-170) on the
list-of-rows representation: False when shape[0] != shape[1], otherwise the
determinant test of is_valid_key. -/
def is_valid_key_matrix (m : List (List ℤ)) : Bool :=
  if matRows m = matCols m then is_valid_key (toMatrix m (matRows m)) else false

/-- HillCipher.matrix_mod_inverse (src/cipher.py lines 122-152): compute the
exact integer determinant, try mod_inverse(det, 26) (None propagates), then
multiply the adjugate by det_inv and reduce entrywise mod 26.  For 2x2
matrices the source writes the adjugate closed form [[d,-b],[-c,a]], which is
Matrix.adjugate_fin_two; for larger sizes it computes np.linalg.inv * det
rounded to integers, which on an invertible integer matrix is again exactly
the adjugate.  Both branches are therefore modelled by Matrix.adjugate. -/
def matrix_mod_inverse {n : ℕ} (K : Matrix (Fin n) (Fin n) ℤ) :
    Option (Matrix (Fin n) (Fin n) ℤ) :=
  match mod_inverse K.det 26 with
  | none => none
  | some det_inv => some ((det_inv • K.adjugate).map (fun x => x % 26))

/-- One step of the block transform loop (src/cipher.py lines 210-213 and
264-267): np.dot(M, block) % 26 on a column block, flattened back to a list. -/
def matVecMod {n : ℕ} (M : Matrix (Fin n) (Fin n) ℤ) (block : List ℤ) : List ℤ :=
  List.ofFn (fun i : Fin n => (∑ j : Fin n, M i j * block.getD (j : ℕ) 0) % 26)

/-- HillCipher.encrypt (src/cipher.py lines 172-223).  Raising ValueError on
an invalid key is modelled as none.  Note the order of operations, faithful
to lines 192-194: the RAW plaintext string is padded with 'X' to a multiple
of the block size first, and only then encoded (non-alphabetic characters
being dropped at that later point). -/
def encrypt {n : ℕ} (K : Matrix (Fin n) (Fin n) ℤ) (plaintext : List Char) :
    Option (List Char) :=
  if is_valid_key K then
    let padded := pad_text plaintext n
    let numbers := text_to_numbers padded
    let blocks := create_text_blocks numbers n
    some (numbers_to_text (blocks.map (matVecMod K)).flatten)
  else none

/-- HillCipher.decrypt (src/cipher.py lines 225-277).  Both ValueError sites
(invalid key; matrix_mod_inverse returning None) are modelled as none.  The
ciphertext is encoded without padding and chunked; the inverse key is applied
blockwise. -/
def decrypt {n : ℕ} (K : Matrix (Fin n) (Fin n) ℤ) (ciphertext : List Char) :
    Option (List Char) :=
  if is_valid_key K then
    match matrix_mod_inverse K with
    | none => none
    | some invK =>
      let numbers := text_to_numbers ciphertext
      let blocks := create_text_blocks numbers n
      some (numbers_to_text (blocks.map (matVecMod invK)).flatten)
  else none

/-- Abbreviation for the entrywise reduction of an integer matrix into
ZMod 26, used to state the algebraic facts behind decryption. -/
def toZMod26 {n : ℕ} (M : Matrix (Fin n) (Fin n) ℤ) :
    Matrix (Fin n) (Fin n) (ZMod 26) :=
  M.map (Int.cast : ℤ → ZMod 26)

/-- The deterministic fallback of HillCipher.generate_random_key_matrix
(src/cipher.py lines 295-305): hardcoded matrices for sizes 2 and 3, and for
any other size the identity with the first two diagonal entries replaced by
3 and 5. -/
def fallback_key_matrix (size : ℕ) : Matrix (Fin size) (Fin size) ℤ :=
  if size = 2 then toMatrix [[3, 2], [5, 7]] size
  else if size = 3 then toMatrix [[6, 24, 1], [13, 16, 10], [20, 17, 15]] size
  else Matrix.diagonal fun i =>
    if (i : ℕ) = 0 then 3 else if (i : ℕ) = 1 then 5 else 1

/-- HillCipher.generate_random_key_matrix (src/cipher.py lines 279-305): up
to 100 candidate matrices are drawn from the random source (modelled by the
oracle `sample`, entry i being the matrix drawn on attempt i); the first one
passing is_valid_key is returned, and if all 100 fail the deterministic
fallback is used. -/
def generate_random_key_matrix (size : ℕ)
    (sample : ℕ → Matrix (Fin size) (Fin size) ℤ) :
    Matrix (Fin size) (Fin size) ℤ :=
  match (List.range 100).find? (fun i => is_valid_key (sample i)) with
  | some i => sample i
  | none => fallback_key_matrix size

/-! ## Lemmas about the extended Euclidean layer -/

/-- Bezout identity for gcd_extended: a * x + b * y equals the returned
first component, whatever its sign. -/
theorem gcd_extended_bezout (a b : ℤ) :
    a * (gcd_extended a b).2.1 + b * (gcd_extended a b).2.2 =
      (gcd_extended a b).1 := by
  induction a, b using gcd_extended.induct with
  | case1 b => simp [gcd_extended]
  | case2 a b h ih =>
    rw [gcd_extended]
    simp only [h, dif_neg, not_false_iff]
    have hb := Int.fmod_add_fdiv b a
    linear_combination ih - (gcd_extended (Int.fmod b a) a).2.1 * hb

/-- The first component of gcd_extended divides both arguments. -/
theorem gcd_extended_fst_dvd (a b : ℤ) :
    (gcd_extended a b).1 ∣ a ∧ (gcd_extended a b).1 ∣ b := by
  induction a, b using gcd_extended.induct with
  | case1 b => simp [gcd_extended]
  | case2 a b h ih =>
    rw [gcd_extended]
    simp only [h, dif_neg, not_false_iff]
    refine ⟨ih.2, ?_⟩
    have hb := Int.fmod_add_fdiv b a
    calc (gcd_extended (Int.fmod b a) a).1
        ∣ Int.fmod b a + a * Int.fdiv b a := dvd_add ih.1 (ih.2.mul_right _)
      _ = b := hb

/-- On nonnegative inputs the first component of gcd_extended is
nonnegative. -/
theorem gcd_extended_fst_nonneg (a b : ℤ) (ha : 0 ≤ a) (hb : 0 ≤ b) :
    0 ≤ (gcd_extended a b).1 := by
  induction a, b using gcd_extended.induct with
  | case1 b => simpa [gcd_extended] using hb
  | case2 a b h ih =>
    rw [gcd_extended]
    simp only [h, dif_neg, not_false_iff]
    exact ih (Int.fmod_nonneg' b (lt_of_le_of_ne ha (Ne.symm h))) ha

/-- Reducing the first argument modulo the second does not change Int.gcd. -/
theorem gcd_emod_left (a b : ℤ) : Int.gcd (a % b) b = Int.gcd a b := by
  apply Nat.dvd_antisymm
  · have h1 : ((Int.gcd (a % b) b : ℤ)) ∣ a := by
      have ha : a % b + b * (a / b) = a := Int.emod_add_ediv a b
      calc ((Int.gcd (a % b) b : ℤ))
          ∣ a % b + b * (a / b) :=
            dvd_add Int.gcd_dvd_left (Int.gcd_dvd_right.mul_right _)
        _ = a := ha
    exact Int.natCast_dvd_natCast.mp (Int.dvd_gcd h1 Int.gcd_dvd_right)
  · have h1 : ((Int.gcd a b : ℤ)) ∣ a % b := by
      rw [Int.emod_def]
      exact dvd_sub Int.gcd_dvd_left (Int.gcd_dvd_right.mul_right _)
    exact Int.natCast_dvd_natCast.mp (Int.dvd_gcd h1 Int.gcd_dvd_right)

/-- Whenever mod_inverse succeeds, it returns a genuine modular inverse. -/
theorem mod_inverse_correct (a x : ℤ) (h : mod_inverse a 26 = some x) :
    a * x % 26 = 1 := by
  unfold mod_inverse at h
  by_cases hg : (gcd_extended a 26).1 = 1
  · simp only [hg, ne_eq, not_true_eq_false, if_false, Option.some.injEq] at h
    have hbez := gcd_extended_bezout a 26
    rw [hg] at hbez
    have hx : x % 26 = (gcd_extended a 26).2.1 % 26 := by omega
    calc a * x % 26 = a % 26 * (x % 26) % 26 := by rw [Int.mul_emod]
      _ = a % 26 * ((gcd_extended a 26).2.1 % 26) % 26 := by rw [hx]
      _ = a * (gcd_extended a 26).2.1 % 26 := by rw [← Int.mul_emod]
      _ = 1 := by
          have hval := hbez
          omega
  · simp [hg] at h

/-- For a positive first argument coprime to 26 the mod_inverse of the
source succeeds (this is the situation of a valid key with positive
determinant). -/
theorem mod_inverse_isSome (a : ℤ) (ha : 0 < a) (hg : Int.gcd a 26 = 1) :
    (mod_inverse a 26).isSome = true := by
  have hdvd := gcd_extended_fst_dvd a 26
  have hnn := gcd_extended_fst_nonneg a 26 (le_of_lt ha) (by norm_num)
  have h1 : (gcd_extended a 26).1 ∣ (1 : ℤ) := by
    have := Int.dvd_gcd hdvd.1 hdvd.2
    rwa [hg] at this
  have hone : (gcd_extended a 26).1 = 1 := by
    rcases Int.isUnit_iff.mp (isUnit_of_dvd_one h1) with h | h
    · exact h
    · omega
  unfold mod_inverse
  simp [hone]

/-! ## Lemmas about the matrix inverse layer -/

/-- Unfolding of the Bool test of is_valid_key. -/
theorem is_valid_key_iff {n : ℕ} (K : Matrix (Fin n) (Fin n) ℤ) :
    is_valid_key K = true ↔ Int.gcd (K.det % 26) 26 = 1 := by
  simp [is_valid_key]

/-- Whenever matrix_mod_inverse succeeds, the returned matrix is a right
inverse of the key over ZMod 26. -/
theorem matrix_mod_inverse_mul {n : ℕ} (K invK : Matrix (Fin n) (Fin n) ℤ)
    (h : matrix_mod_inverse K = some invK) :
    toZMod26 K * toZMod26 invK = 1 := by
  unfold matrix_mod_inverse at h
  rcases hd : mod_inverse K.det 26 with _ | d
  · rw [hd] at h; exact absurd h (by simp)
  · rw [hd] at h
    simp only [Option.some.injEq] at h
    subst h
    have hmul := mod_inverse_correct K.det d hd
    have hcast : ((K.det : ZMod 26)) * ((d : ZMod 26)) = 1 := by
      have : ((K.det * d : ℤ) : ZMod 26) = ((K.det * d % 26 : ℤ) : ZMod 26) :=
        (ZMod.intCast_mod (K.det * d) 26).symm
      rw [hmul] at this
      push_cast at this
      exact this
    have hmap : toZMod26 ((d • K.adjugate).map (fun x => x % 26)) =
        (d : ZMod 26) • (toZMod26 K).adjugate := by
      have hadj := (Int.castRingHom (ZMod 26)).map_adjugate K
      simp only [RingHom.mapMatrix_apply, Int.coe_castRingHom] at hadj
      unfold toZMod26
      ext i j
      simp only [Matrix.map_apply, Matrix.smul_apply, smul_eq_mul,
        Matrix.map_map, Function.comp_apply]
      have h26 : ((d * K.adjugate i j % 26 : ℤ) : ZMod 26) =
          ((d * K.adjugate i j : ℤ) : ZMod 26) := by
        have := ZMod.intCast_mod (d * K.adjugate i j) 26
        simpa using this
      rw [h26]
      push_cast
      congr 1
      rw [← hadj]
      simp [Matrix.map_apply]
    rw [hmap]
    rw [Matrix.mul_smul, Matrix.mul_adjugate]
    have hdet : (toZMod26 K).det = ((K.det : ZMod 26)) := by
      have := (Int.castRingHom (ZMod 26)).map_det K
      simp only [RingHom.mapMatrix_apply, Int.coe_castRingHom] at this
      unfold toZMod26
      rw [← this]
    rw [hdet, smul_smul, mul_comm (d : ZMod 26), hcast, one_smul]

/-- Integer form of matrix_mod_inverse_mul: the product reduced entrywise
mod 26 is literally the identity matrix. -/
theorem matrix_mod_inverse_mul_emod {n : ℕ} (K invK : Matrix (Fin n) (Fin n) ℤ)
    (h : matrix_mod_inverse K = some invK) :
    (K * invK).map (fun x => x % 26) = 1 := by
  have hz := matrix_mod_inverse_mul K invK h
  unfold toZMod26 at hz
  have hfun : (Int.cast : ℤ → ZMod 26) = ⇑(Int.castRingHom (ZMod 26)) := rfl
  rw [hfun, ← Matrix.map_mul] at hz
  ext i j
  have hij : (((K * invK) i j : ℤ) : ZMod 26) =
      (((1 : Matrix (Fin n) (Fin n) ℤ) i j : ℤ) : ZMod 26) := by
    have h1 : ((K * invK).map (Int.castRingHom (ZMod 26) : ℤ → ZMod 26)) i j =
        (1 : Matrix (Fin n) (Fin n) (ZMod 26)) i j := by rw [hz]
    simp only [Matrix.map_apply, Int.coe_castRingHom] at h1
    rw [h1]
    by_cases hij : i = j <;> simp [Matrix.one_apply, hij]
  have := (ZMod.intCast_eq_intCast_iff' _ _ _).mp hij
  simp only [Nat.cast_ofNat] at this
  rw [Matrix.map_apply, this]
  by_cases hij : i = j <;> simp [Matrix.one_apply, hij]

/-- For a valid key with positive determinant, the inverse key computation
of the source succeeds. -/
theorem matrix_mod_inverse_isSome {n : ℕ} (K : Matrix (Fin n) (Fin n) ℤ)
    (hv : is_valid_key K = true) (hd : 0 < K.det) :
    (matrix_mod_inverse K).isSome = true := by
  have hg : Int.gcd K.det 26 = 1 := by
    rw [← gcd_emod_left]
    exact (is_valid_key_iff K).mp hv
  have := mod_inverse_isSome K.det hd hg
  unfold matrix_mod_inverse
  rcases hmi : mod_inverse K.det 26 with _ | d
  · rw [hmi] at this; exact absurd this (by simp)
  · simp

/-! ## Lemmas about the text codec layer -/

/-- Extract the numeric range of an ASCII letter from Char.isAlpha. -/
theorem isAlpha_toNat_bounds (c : Char) (h : c.isAlpha = true) :
    (65 ≤ c.toNat ∧ c.toNat ≤ 90) ∨ (97 ≤ c.toNat ∧ c.toNat ≤ 122) := by
  simp only [Char.isAlpha, Char.isUpper, Char.isLower, Bool.or_eq_true,
    Bool.and_eq_true, decide_eq_true_eq, ge_iff_le] at h
  rcases h with ⟨h1, h2⟩ | ⟨h1, h2⟩
  · exact Or.inl ⟨h1, h2⟩
  · exact Or.inr ⟨h1, h2⟩

/-- Per-character facts used on the encoding path for an ASCII letter: its
uppercasing survives both filters of text_to_numbers and its code is in
[0, 25]. -/
theorem alpha_char_facts (c : Char) (h : c.isAlpha = true) :
    (pyToUpper c != ' ') = true ∧ pyIsAlpha (pyToUpper c) = true ∧
    65 ≤ (pyToUpper c).toNat ∧ (pyToUpper c).toNat ≤ 90 ∧
    pyToUpper c = c.toUpper := by
  have hb := isAlpha_toNat_bounds c h
  rw [← Char.ofNat_toNat c]
  rcases hb with ⟨h1, h2⟩ | ⟨h1, h2⟩ <;>
    [interval_cases c.toNat; interval_cases c.toNat] <;> decide

/-- Per-character facts on the encoding path for an ASCII non-letter: it is
left unchanged by uppercasing and rejected by the isalpha filter. -/
theorem nonalpha_char_facts (c : Char) (hc : c.toNat < 128)
    (h : c.isAlpha = false) : pyToUpper c = c ∧ pyIsAlpha c = false := by
  have hb : ¬((65 ≤ c.toNat ∧ c.toNat ≤ 90) ∨ (97 ≤ c.toNat ∧ c.toNat ≤ 122)) := by
    intro hcon
    apply absurd h
    simp only [Char.isAlpha, Char.isUpper, Char.isLower, Bool.or_eq_true,
      Bool.and_eq_true, decide_eq_true_eq, ge_iff_le, Bool.not_eq_false]
    rcases hcon with ⟨h1, h2⟩ | ⟨h1, h2⟩
    · exact Or.inl ⟨h1, h2⟩
    · exact Or.inr ⟨h1, h2⟩
  push_neg at hb
  constructor
  · show (if c == 'é' then 'É' else c.toUpper) = c
    have hne : (c == 'é') = false := by
      apply beq_false_of_ne
      intro hcon
      rw [hcon] at hc
      exact absurd hc (by decide)
    rw [hne]
    show (if 97 ≤ c.toNat ∧ c.toNat ≤ 122 then Char.ofNat (c.toNat - 32) else c) = c
    rw [if_neg]
    intro ⟨h1, h2⟩
    exact absurd (hb.2 h1) (by omega)
  · show (c.isAlpha || c == 'é' || c == 'É') = false
    have h1 : (c == 'é') = false := by
      apply beq_false_of_ne
      intro hcon
      rw [hcon] at hc
      exact absurd hc (by decide)
    have h2 : (c == 'É') = false := by
      apply beq_false_of_ne
      intro hcon
      rw [hcon] at hc
      exact absurd hc (by decide)
    rw [h, h1, h2]
    rfl

/-- Per-character facts on the decoding path: for x in [0, 26) the character
chr(x + 65) is an uppercase letter, is a fixed point of the reencoding
pipeline, and decodes back to x. -/
theorem decode_char_facts (x : ℤ) (h0 : 0 ≤ x) (h1 : x < 26) :
    pyToUpper (Char.ofNat (x + 65).toNat) = Char.ofNat (x + 65).toNat ∧
    (Char.ofNat (x + 65).toNat != ' ') = true ∧
    pyIsAlpha (Char.ofNat (x + 65).toNat) = true ∧
    (((Char.ofNat (x + 65).toNat).toNat : ℤ) - 65) = x ∧
    'A' ≤ Char.ofNat (x + 65).toNat ∧ Char.ofNat (x + 65).toNat ≤ 'Z' := by
  interval_cases x <;>
    exact ⟨by decide, by decide, by decide, by decide, by decide, by decide⟩

/-- Evaluation of text_to_numbers on a leading character that survives both
filters. -/
theorem text_to_numbers_cons_keep (c : Char) (s : List Char)
    (h1 : (pyToUpper c != ' ') = true) (h2 : pyIsAlpha (pyToUpper c) = true) :
    text_to_numbers (c :: s) =
      (((pyToUpper c).toNat : ℤ) - 65) :: text_to_numbers s := by
  simp [text_to_numbers, List.filter_cons, h1, h2]

/-- Evaluation of text_to_numbers on a leading character rejected by the
isalpha filter. -/
theorem text_to_numbers_cons_drop (c : Char) (s : List Char)
    (h2 : pyIsAlpha (pyToUpper c) = false) :
    text_to_numbers (c :: s) = text_to_numbers s := by
  by_cases h1 : (pyToUpper c != ' ') = true <;>
    simp [text_to_numbers, List.filter_cons, h1, h2]

/-- text_to_numbers distributes over append. -/
theorem text_to_numbers_append (xs ys : List Char) :
    text_to_numbers (xs ++ ys) = text_to_numbers xs ++ text_to_numbers ys := by
  simp [text_to_numbers]

/-- The encoding of a run of padding characters 'X'. -/
theorem text_to_numbers_replicate_X (k : ℕ) :
    text_to_numbers (List.replicate k 'X') = List.replicate k 23 := by
  induction k with
  | zero => rfl
  | succ k ih =>
    rw [List.replicate_succ, List.replicate_succ,
      text_to_numbers_cons_keep 'X' _ (by decide) (by decide), ih,
      show (((pyToUpper 'X').toNat : ℤ) - 65) = 23 from by decide]

/-- On a string of ASCII letters, text_to_numbers keeps every character:
it is exactly the per-character uppercase-and-encode map. -/
theorem text_to_numbers_of_alpha (s : List Char) (h : ∀ c ∈ s, c.isAlpha = true) :
    text_to_numbers s = s.map (fun c => ((c.toUpper.toNat : ℤ) - 65)) := by
  induction s with
  | nil => rfl
  | cons c s ih =>
    have hc := alpha_char_facts c (h c (List.mem_cons_self c s))
    have hrest := ih (fun d hd => h d (List.mem_cons_of_mem c hd))
    simp only [text_to_numbers, List.map_cons, List.filter_cons] at *
    rw [hc.1]
    simp only [if_true]
    rw [List.filter_cons, hc.2.1]
    simp only [if_true, List.map_cons]
    rw [hrest, hc.2.2.2.2]

/-- The codes produced from a string of ASCII letters are all in [0, 25]. -/
theorem text_to_numbers_of_alpha_mem (s : List Char)
    (h : ∀ c ∈ s, c.isAlpha = true) :
    ∀ x ∈ text_to_numbers s, 0 ≤ x ∧ x < 26 := by
  rw [text_to_numbers_of_alpha s h]
  intro x hx
  rw [List.mem_map] at hx
  obtain ⟨c, hc, rfl⟩ := hx
  have hf := alpha_char_facts c (h c hc)
  rw [hf.2.2.2.2] at hf
  omega

/-- Reencoding the decoded form of a list of residues in [0, 26) gives the
list back (the decrypt path applied to a ciphertext built by encrypt). -/
theorem text_to_numbers_numbers_to_text (ns : List ℤ)
    (h : ∀ x ∈ ns, 0 ≤ x ∧ x < 26) :
    text_to_numbers (numbers_to_text ns) = ns := by
  induction ns with
  | nil => rfl
  | cons x ns ih =>
    have hx := h x (List.mem_cons_self x ns)
    have hf := decode_char_facts x hx.1 hx.2
    have hrest := ih (fun y hy => h y (List.mem_cons_of_mem x hy))
    simp only [numbers_to_text, List.map_cons] at *
    simp only [text_to_numbers, List.map_cons, List.filter_cons] at *
    rw [hf.1, hf.2.1]
    simp only [if_true]
    rw [List.filter_cons, hf.2.2.1]
    simp only [if_true, List.map_cons]
    rw [hrest, hf.2.2.2.1]

/-- The decoded form of a list of residues in [0, 26) consists of uppercase
letters only. -/
theorem numbers_to_text_mem (ns : List ℤ) (h : ∀ x ∈ ns, 0 ≤ x ∧ x < 26) :
    ∀ c ∈ numbers_to_text ns, 'A' ≤ c ∧ c ≤ 'Z' := by
  intro c hc
  rw [numbers_to_text, List.mem_map] at hc
  obtain ⟨x, hx, rfl⟩ := hc
  have hf := decode_char_facts x (h x hx).1 (h x hx).2
  exact ⟨hf.2.2.2.2.1, hf.2.2.2.2.2⟩

/-! ## Lemmas about block partitioning -/

/-- When the length is an exact multiple of the (positive) block size,
chunking loses nothing: the concatenation of the blocks is the input. -/
theorem create_text_blocks_flatten (ns : List ℤ) (b : ℕ) :
    0 < b → b ∣ ns.length → (create_text_blocks ns b).flatten = ns := by
  induction ns, b using create_text_blocks.induct with
  | case1 ns b h ih =>
    intro hb hd
    rw [create_text_blocks, dif_pos h]
    rw [List.flatten_cons]
    have hd' : b ∣ (ns.drop b).length := by
      rw [List.length_drop]
      exact Nat.dvd_sub' hd dvd_rfl
    rw [ih hb hd', List.take_append_drop]
  | case2 ns b h =>
    intro hb hd
    rw [create_text_blocks, dif_neg h]
    push_neg at h
    have hlt := h hb
    have hz : ns.length = 0 := by
      rcases Nat.eq_zero_or_pos ns.length with h0 | h0
      · exact h0
      · exact absurd (Nat.le_of_dvd h0 hd) (by omega)
    rw [List.length_eq_zero] at hz
    rw [hz]
    rfl

/-- Every block produced by create_text_blocks has exactly the block size. -/
theorem create_text_blocks_length (ns : List ℤ) (b : ℕ) :
    ∀ blk ∈ create_text_blocks ns b, blk.length = b := by
  induction ns, b using create_text_blocks.induct with
  | case1 ns b h ih =>
    intro blk hblk
    rw [create_text_blocks, dif_pos h] at hblk
    rcases List.mem_cons.mp hblk with rfl | hblk
    · rw [List.length_take]
      omega
    · exact ih blk hblk
  | case2 ns b h =>
    intro blk hblk
    rw [create_text_blocks, dif_neg h] at hblk
    exact absurd hblk (List.not_mem_nil blk)

/-- Every element of a block produced by create_text_blocks comes from the
input list. -/
theorem create_text_blocks_mem (ns : List ℤ) (b : ℕ) :
    ∀ blk ∈ create_text_blocks ns b, ∀ x ∈ blk, x ∈ ns := by
  induction ns, b using create_text_blocks.induct with
  | case1 ns b h ih =>
    intro blk hblk x hx
    rw [create_text_blocks, dif_pos h] at hblk
    rcases List.mem_cons.mp hblk with rfl | hblk
    · exact (List.take_sublist b ns).subset hx
    · exact (List.drop_sublist b ns).subset (ih blk hblk x hx)
  | case2 ns b h =>
    intro blk hblk
    rw [create_text_blocks, dif_neg h] at hblk
    exact absurd hblk (List.not_mem_nil blk)

/-- Chunking the concatenation of full blocks recovers exactly those
blocks. -/
theorem create_text_blocks_of_flatten (bs : List (List ℤ)) (b : ℕ)
    (hb : 0 < b) (hlen : ∀ blk ∈ bs, blk.length = b) :
    create_text_blocks bs.flatten b = bs := by
  induction bs with
  | nil =>
    rw [create_text_blocks]
    rw [dif_neg]
    intro hcon
    simp only [List.flatten_nil, List.length_nil] at hcon
    omega
  | cons blk bs ih =>
    have hblk : blk.length = b := hlen blk (List.mem_cons_self blk bs)
    rw [List.flatten_cons, create_text_blocks, dif_pos]
    · rw [List.take_left' hblk, List.drop_left' hblk,
        ih (fun x hx => hlen x (List.mem_cons_of_mem blk hx))]
    · constructor
      · exact hb
      · rw [List.length_append, hblk]
        omega

/-! ## Lemmas about the per-block transform -/

/-- The transform of a block is a full block. -/
theorem matVecMod_length {n : ℕ} (M : Matrix (Fin n) (Fin n) ℤ)
    (blk : List ℤ) : (matVecMod M blk).length = n := by
  simp [matVecMod]

/-- Every entry of a transformed block is a residue in [0, 26). -/
theorem matVecMod_mem {n : ℕ} (M : Matrix (Fin n) (Fin n) ℤ) (blk : List ℤ) :
    ∀ x ∈ matVecMod M blk, 0 ≤ x ∧ x < 26 := by
  intro x hx
  rw [matVecMod, List.mem_ofFn] at hx
  obtain ⟨i, rfl⟩ := hx
  exact ⟨Int.emod_nonneg _ (by norm_num), Int.emod_lt_of_pos _ (by norm_num)⟩

/-- Reading an entry of a list built by ofFn, at an index below the
length. -/
theorem getD_ofFn {n : ℕ} (f : Fin n → ℤ) (j : Fin n) :
    (List.ofFn f).getD (j : ℕ) 0 = f j := by
  have hj : (j : ℕ) < (List.ofFn f).length := by simp
  rw [List.getD_eq_getElem _ _ hj, List.getElem_ofFn]

/-- Reading an entry of a transformed block. -/
theorem matVecMod_getD {n : ℕ} (M : Matrix (Fin n) (Fin n) ℤ) (blk : List ℤ)
    (j : Fin n) : (matVecMod M blk).getD (j : ℕ) 0 =
      (∑ l : Fin n, M j l * blk.getD (l : ℕ) 0) % 26 := by
  have hj : (j : ℕ) < (matVecMod M blk).length := by
    rw [matVecMod_length]; exact j.isLt
  rw [List.getD_eq_getElem _ _ hj]
  simp [matVecMod]

/-- Cast of a reduced residue into ZMod 26. -/
theorem intCast_emod_26 (x : ℤ) : ((x % 26 : ℤ) : ZMod 26) = (x : ZMod 26) := by
  have := ZMod.intCast_mod x 26
  simpa using this

/-- Applying the transform of a left inverse (over ZMod 26) after the
transform of the key gives the original block back, provided the block is
full and its entries are residues in [0, 26). -/
theorem matVecMod_roundtrip {n : ℕ} (K invK : Matrix (Fin n) (Fin n) ℤ)
    (hinv : toZMod26 invK * toZMod26 K = 1) (blk : List ℤ)
    (hlen : blk.length = n) (hmem : ∀ x ∈ blk, 0 ≤ x ∧ x < 26) :
    matVecMod invK (matVecMod K blk) = blk := by
  apply List.ext_getElem
  · rw [matVecMod_length, hlen]
  intro i h1 h2
  rw [matVecMod_length] at h1
  simp only [matVecMod, List.getElem_ofFn]
  simp only [getD_ofFn]
  set i' : Fin n := ⟨i, h1⟩ with hi'
  set g : Fin n → ℤ := fun l => blk.getD (l : ℕ) 0 with hg
  have hblki : blk[i] = g i' := by
    show blk[i] = blk.getD i 0
    rw [List.getD_eq_getElem _ _ h2]
  rw [hblki]
  have hrange : 0 ≤ g i' ∧ g i' < 26 := by
    rw [← hblki]
    exact hmem _ (List.getElem_mem h2)
  have hcast : (((∑ j : Fin n, invK i' j * ((∑ l : Fin n, K j l * g l) % 26)) % 26 : ℤ) :
      ZMod 26) = ((g i' : ℤ) : ZMod 26) := by
    rw [intCast_emod_26]
    push_cast [intCast_emod_26]
    calc ∑ j : Fin n, ((invK i' j : ZMod 26) * ((∑ l : Fin n, (K j l : ZMod 26) * (g l : ZMod 26))))
        = ∑ j : Fin n, ∑ l : Fin n,
            (invK i' j : ZMod 26) * ((K j l : ZMod 26) * (g l : ZMod 26)) := by
          simp [Finset.mul_sum]
      _ = ∑ l : Fin n, ∑ j : Fin n,
            (invK i' j : ZMod 26) * (K j l : ZMod 26) * (g l : ZMod 26) := by
          rw [Finset.sum_comm]
          simp [mul_assoc]
      _ = ∑ l : Fin n, (∑ j : Fin n,
            (invK i' j : ZMod 26) * (K j l : ZMod 26)) * (g l : ZMod 26) := by
          simp [Finset.sum_mul]
      _ = ∑ l : Fin n, ((1 : Matrix (Fin n) (Fin n) (ZMod 26)) i' l) * (g l : ZMod 26) := by
          apply Finset.sum_congr rfl
          intro l _
          congr 1
          rw [← hinv]
          rw [Matrix.mul_apply]
          rfl
      _ = (g i' : ZMod 26) := by
          simp [Matrix.one_apply]
  have hmz := (ZMod.intCast_eq_intCast_iff' _ _ _).mp hcast
  simp only [Nat.cast_ofNat] at hmz
  rw [Int.emod_emod_of_dvd _ dvd_rfl] at hmz
  rw [hmz]
  exact Int.emod_eq_of_lt hrange.1 hrange.2

/-! ## Assembly lemmas for encrypt and decrypt -/

/-- numbers_to_text distributes over append. -/
theorem numbers_to_text_append (xs ys : List ℤ) :
    numbers_to_text (xs ++ ys) = numbers_to_text xs ++ numbers_to_text ys := by
  simp [numbers_to_text]

/-- Decoding a run of padding codes 23 gives a run of 'X'. -/
theorem numbers_to_text_replicate_23 (k : ℕ) :
    numbers_to_text (List.replicate k 23) = List.replicate k 'X' := by
  simp only [numbers_to_text, List.map_replicate]
  rfl

/-- The padding count of pad_text completes any length to a multiple of the
(positive) block size. -/
theorem pad_length_dvd (L n : ℕ) (hn : 0 < n) :
    n ∣ L + (n - L % n) % n := by
  have hr : L % n < n := Nat.mod_lt _ hn
  rcases Nat.eq_zero_or_pos (L % n) with h0 | h0
  · have hk : (n - L % n) % n = 0 := by
      rw [h0, Nat.sub_zero, Nat.mod_self]
    rw [hk, Nat.add_zero]
    exact Nat.dvd_of_mod_eq_zero h0
  · have hk : (n - L % n) % n = n - L % n := Nat.mod_eq_of_lt (by omega)
    rw [hk]
    apply Nat.dvd_of_mod_eq_zero
    rw [Nat.add_mod, hk]
    have hsum : L % n + (n - L % n) = n := by omega
    rw [hsum, Nat.mod_self]

/-- C1 (amended): the full encrypt-then-decrypt round trip of src/cipher.py,
on the domain
where it is in fact lossless: a plaintext made of ASCII letters only, and a
valid key whose integer determinant is positive (so that the inverse-key
computation of decrypt succeeds).  The recovered plaintext is the uppercased
letters of the input followed by the 'X' padding added by encrypt. -/
theorem encrypt_decrypt_eq {n : ℕ} (K : Matrix (Fin n) (Fin n) ℤ)
    (s : List Char) (hn : 0 < n) (hv : is_valid_key K = true)
    (hd : 0 < K.det) (hs : ∀ c ∈ s, c.isAlpha = true) :
    (encrypt K s).bind (decrypt K) =
      some (numbers_to_text (text_to_numbers s) ++
        List.replicate ((n - s.length % n) % n) 'X') := by
  have htn : text_to_numbers (pad_text s n) =
      text_to_numbers s ++ List.replicate ((n - s.length % n) % n) 23 := by
    rw [pad_text, text_to_numbers_append, text_to_numbers_replicate_X]
  have hlen_tn : (text_to_numbers s).length = s.length := by
    rw [text_to_numbers_of_alpha s hs, List.length_map]
  have hdvd : n ∣ (text_to_numbers (pad_text s n)).length := by
    rw [htn, List.length_append, List.length_replicate, hlen_tn]
    exact pad_length_dvd s.length n hn
  have hmem_ns : ∀ x ∈ text_to_numbers (pad_text s n), 0 ≤ x ∧ x < 26 := by
    rw [htn]
    intro x hx
    rcases List.mem_append.mp hx with hx | hx
    · exact text_to_numbers_of_alpha_mem s hs x hx
    · rw [List.eq_of_mem_replicate hx]
      norm_num
  have henc : encrypt K s = some (numbers_to_text
      ((create_text_blocks (text_to_numbers (pad_text s n)) n).map
        (matVecMod K)).flatten) := by
    simp only [encrypt, if_pos hv]
  have hebmem : ∀ x ∈ ((create_text_blocks (text_to_numbers (pad_text s n)) n).map
      (matVecMod K)).flatten, 0 ≤ x ∧ x < 26 := by
    intro x hx
    rw [List.mem_flatten] at hx
    obtain ⟨blk, hblk, hxblk⟩ := hx
    rw [List.mem_map] at hblk
    obtain ⟨b0, _, rfl⟩ := hblk
    exact matVecMod_mem K b0 x hxblk
  have heblen : ∀ blk ∈ (create_text_blocks (text_to_numbers (pad_text s n)) n).map
      (matVecMod K), blk.length = n := by
    intro blk hblk
    rw [List.mem_map] at hblk
    obtain ⟨b0, _, rfl⟩ := hblk
    exact matVecMod_length K b0
  obtain ⟨invK, hinvK⟩ :
      ∃ invK, matrix_mod_inverse K = some invK := by
    have := matrix_mod_inverse_isSome K hv hd
    rcases hmi : matrix_mod_inverse K with _ | iv
    · rw [hmi] at this; exact absurd this (by simp)
    · exact ⟨iv, rfl⟩
  have hinv : toZMod26 invK * toZMod26 K = 1 :=
    Matrix.mul_eq_one_comm.mp (matrix_mod_inverse_mul K invK hinvK)
  have hdec : decrypt K (numbers_to_text
      ((create_text_blocks (text_to_numbers (pad_text s n)) n).map
        (matVecMod K)).flatten) =
      some (numbers_to_text (text_to_numbers (pad_text s n))) := by
    have h1 : text_to_numbers (numbers_to_text
        ((create_text_blocks (text_to_numbers (pad_text s n)) n).map
          (matVecMod K)).flatten) =
        ((create_text_blocks (text_to_numbers (pad_text s n)) n).map
          (matVecMod K)).flatten :=
      text_to_numbers_numbers_to_text _ hebmem
    have h2 : create_text_blocks
        ((create_text_blocks (text_to_numbers (pad_text s n)) n).map
          (matVecMod K)).flatten n =
        (create_text_blocks (text_to_numbers (pad_text s n)) n).map
          (matVecMod K) :=
      create_text_blocks_of_flatten _ n hn heblen
    have h3 : ((create_text_blocks (text_to_numbers (pad_text s n)) n).map
        (matVecMod K)).map (matVecMod invK) =
        create_text_blocks (text_to_numbers (pad_text s n)) n := by
      rw [List.map_map]
      have hpt : ∀ b0 ∈ create_text_blocks (text_to_numbers (pad_text s n)) n,
          (matVecMod invK ∘ matVecMod K) b0 = b0 := by
        intro b0 hb0
        exact matVecMod_roundtrip K invK hinv b0
          (create_text_blocks_length _ n b0 hb0)
          (fun x hx => hmem_ns x (create_text_blocks_mem _ n b0 hb0 x hx))
      rw [List.map_congr_left hpt, List.map_id']
    have h4 : (create_text_blocks (text_to_numbers (pad_text s n)) n).flatten =
        text_to_numbers (pad_text s n) :=
      create_text_blocks_flatten _ n hn hdvd
    simp only [decrypt, if_pos hv, hinvK, h1, h2, h3, h4]
  rw [henc, Option.some_bind, hdec, htn, numbers_to_text_append,
    numbers_to_text_replicate_23]

/-! ## Concrete evaluation helpers -/

/-- The demo key [[3,2],[5,7]] has determinant 11. -/
theorem det_32 : (!![3,2;5,7] : Matrix (Fin 2) (Fin 2) ℤ).det = 11 := by
  simp [Matrix.det_fin_two_of]

/-- The demo key [[3,2],[5,7]] passes validation. -/
theorem valid_key_32 : is_valid_key (!![3,2;5,7] : Matrix (Fin 2) (Fin 2) ℤ) = true := by
  rw [is_valid_key, det_32]
  decide

/-- The scalar inverse of 11 modulo 26 as computed by the source. -/
theorem mod_inverse_11 : mod_inverse 11 26 = some 19 := by
  have h : gcd_extended 11 26 = (1, -7, 3) := by simp [gcd_extended]
  simp [mod_inverse, h]

/-- The inverse key matrix of [[3,2],[5,7]] as computed by the source. -/
theorem matrix_mod_inverse_32 :
    matrix_mod_inverse (!![3,2;5,7] : Matrix (Fin 2) (Fin 2) ℤ) =
      some !![3,14;9,5] := by
  have hadj : (((19 : ℤ) • (!![3,2;5,7] : Matrix (Fin 2) (Fin 2) ℤ).adjugate).map
      (fun x => x % 26)) = !![3,14;9,5] := by
    rw [Matrix.adjugate_fin_two]
    ext i j
    fin_cases i <;> fin_cases j <;> simp
  unfold matrix_mod_inverse
  rw [det_32, mod_inverse_11]
  show some (((19 : ℤ) • (!![3,2;5,7] : Matrix (Fin 2) (Fin 2) ℤ).adjugate).map
    (fun x => x % 26)) = some !![3,14;9,5]
  rw [hadj]

/-- Block transform of [7,4] ('HE') under the demo key. -/
theorem matVecMod_32_HE : matVecMod !![3,2;5,7] [7, 4] = [3, 11] := by
  simp [matVecMod, Fin.sum_univ_two, List.ofFn_succ]

/-- Block transform of [11,11] ('LL') under the demo key. -/
theorem matVecMod_32_LL : matVecMod !![3,2;5,7] [11, 11] = [3, 2] := by
  simp [matVecMod, Fin.sum_univ_two, List.ofFn_succ]

/-- Block transform of [14,23] ('OX') under the demo key. -/
theorem matVecMod_32_OX : matVecMod !![3,2;5,7] [14, 23] = [10, 23] := by
  simp [matVecMod, Fin.sum_univ_two, List.ofFn_succ]

/-- Encoding of the padded plaintext "HELLO" at block size 2. -/
theorem hello_padded_codes :
    text_to_numbers (pad_text ['H','E','L','L','O'] 2) = [7, 4, 11, 11, 14, 23] := by
  decide

/-- Block partition of the encoded padded "HELLO". -/
theorem hello_blocks :
    create_text_blocks [7, 4, 11, 11, 14, 23] 2 = [[7, 4], [11, 11], [14, 23]] := by
  simp [create_text_blocks]

/-- Full evaluation of encrypt on "HELLO" with the demo key: the ciphertext
is "DLDCKX". -/
theorem hello_encrypt :
    encrypt !![3,2;5,7] ['H','E','L','L','O'] = some ['D','L','D','C','K','X'] := by
  simp only [encrypt, valid_key_32, if_true]
  rw [hello_padded_codes, hello_blocks]
  rw [List.map_cons, List.map_cons, List.map_cons, List.map_nil,
    matVecMod_32_HE, matVecMod_32_LL, matVecMod_32_OX]
  decide

/-- Full evaluation of encrypt on "ABC!" with the demo key: the raw length 4
needs no padding, the encoding keeps only [0,1,2], and the trailing code 2
('C') is silently dropped by block partitioning; the ciphertext is "CH". -/
theorem abc_encrypt :
    encrypt !![3,2;5,7] ['A','B','C','!'] = some ['C','H'] := by
  simp only [encrypt, valid_key_32, if_true]
  have h1 : text_to_numbers (pad_text ['A','B','C','!'] 2) = [0, 1, 2] := by decide
  rw [h1]
  have h2 : create_text_blocks [0, 1, 2] 2 = [[0, 1]] := by
    simp [create_text_blocks]
  rw [h2, List.map_cons, List.map_nil]
  have h3 : matVecMod !![3,2;5,7] [0, 1] = [2, 7] := by
    simp [matVecMod, Fin.sum_univ_two, List.ofFn_succ]
  rw [h3]
  decide

/-- Full evaluation of decrypt on "CH" with the demo key: the plaintext
comes back as "AB" (the 'C' of the original "ABC!" is gone). -/
theorem ch_decrypt :
    decrypt !![3,2;5,7] ['C','H'] = some ['A','B'] := by
  simp only [decrypt, valid_key_32, if_true, matrix_mod_inverse_32]
  have h1 : text_to_numbers ['C','H'] = [2, 7] := by decide
  rw [h1]
  have h2 : create_text_blocks [2, 7] 2 = [[2, 7]] := by
    simp [create_text_blocks]
  rw [h2, List.map_cons, List.map_nil]
  have h3 : matVecMod !![3,14;9,5] [2, 7] = [0, 1] := by
    simp [matVecMod, Fin.sum_univ_two, List.ofFn_succ]
  rw [h3]
  decide

/-- Concatenating full blocks gives a length divisible by the block size. -/
theorem flatten_length_dvd (bs : List (List ℤ)) (n : ℕ)
    (h : ∀ b ∈ bs, b.length = n) : n ∣ bs.flatten.length := by
  induction bs with
  | nil => simp
  | cons b bs ih =>
    rw [List.flatten_cons, List.length_append, h b (List.mem_cons_self b bs)]
    exact dvd_add dvd_rfl (ih (fun x hx => h x (List.mem_cons_of_mem b hx)))

/-! ## Claim theorems -/

/-- Witness for C1 at "HELLO" with the demo key [[3,2],[5,7]]: every
hypothesis of the amended round-trip statement holds there and the recovered
plaintext is "HELLOX". -/
theorem encrypt_decrypt_eq_witness :
    ((0:ℕ) < 2 ∧ is_valid_key (!![3,2;5,7] : Matrix (Fin 2) (Fin 2) ℤ) = true ∧
      (0:ℤ) < (!![3,2;5,7] : Matrix (Fin 2) (Fin 2) ℤ).det ∧
      (∀ c ∈ (['H','E','L','L','O'] : List Char), c.isAlpha = true)) ∧
    (encrypt !![3,2;5,7] ['H','E','L','L','O']).bind (decrypt !![3,2;5,7]) =
      some (numbers_to_text (text_to_numbers ['H','E','L','L','O']) ++
        List.replicate ((2 - (['H','E','L','L','O'] : List Char).length % 2) % 2) 'X') :=
  ⟨⟨by decide, valid_key_32, by rw [det_32]; decide, by decide⟩,
   encrypt_decrypt_eq !![3,2;5,7] ['H','E','L','L','O'] (by decide) valid_key_32
     (by rw [det_32]; decide) (by decide)⟩

/-- C1 is false as stated: "ABC!" contains the A-Z letters A, B, C, and the
key [[3,2],[5,7]] is valid, yet decrypt(encrypt("ABC!")) = "AB", which is not
decode(encode("ABC!")) = "ABC" followed by trailing 'X' characters: the code
pads the raw string before encoding, so the letter 'C' is silently dropped
by block partitioning. -/
theorem round_trip_cex :
    encrypt !![3,2;5,7] ['A','B','C','!'] = some ['C','H'] ∧
    decrypt !![3,2;5,7] ['C','H'] = some ['A','B'] ∧
    numbers_to_text (text_to_numbers ['A','B','C','!']) = ['A','B','C'] ∧
    ¬ ∃ k : ℕ, (['A','B'] : List Char) = ['A','B','C'] ++ List.replicate k 'X' := by
  refine ⟨abc_encrypt, ch_decrypt, by decide, ?_⟩
  rintro ⟨k, h⟩
  have hlen := congrArg List.length h
  simp only [List.length_append, List.length_replicate, List.length_cons,
    List.length_nil] at hlen
  omega

/-- C2: key validation returns false for every non-square matrix, and for a
square matrix returns true exactly when gcd(det mod 26, 26) = 1; in
particular [[3,2],[5,7]] is valid and [[2,4],[6,8]] is invalid. -/
theorem is_valid_key_matrix_spec :
    (∀ m : List (List ℤ), (∀ r ∈ m, r.length = matCols m) →
      (matRows m ≠ matCols m → is_valid_key_matrix m = false) ∧
      (matRows m = matCols m →
        (is_valid_key_matrix m = true ↔
          Int.gcd ((toMatrix m (matRows m)).det % 26) 26 = 1))) ∧
    is_valid_key_matrix [[3, 2], [5, 7]] = true ∧
    is_valid_key_matrix [[2, 4], [6, 8]] = false := by
  refine ⟨fun m _ => ⟨fun hne => ?_, fun heq => ?_⟩, ?_, ?_⟩
  · rw [is_valid_key_matrix, if_neg hne]
  · rw [is_valid_key_matrix, if_pos heq]
    exact is_valid_key_iff _
  · have h1 : toMatrix [[3, 2], [5, 7]] (matRows [[3, 2], [5, 7]]) = !![3,2;5,7] := by
      ext i j
      fin_cases i <;> fin_cases j <;> rfl
    rw [is_valid_key_matrix, if_pos (show matRows [[3, 2], [5, 7]] =
      matCols [[3, 2], [5, 7]] by decide), h1]
    exact valid_key_32
  · rw [is_valid_key_matrix, if_pos (show matRows [[2, 4], [6, 8]] =
      matCols [[2, 4], [6, 8]] by decide)]
    show is_valid_key (toMatrix [[2, 4], [6, 8]] 2) = false
    have h1 : toMatrix [[2, 4], [6, 8]] 2 = (!![2,4;6,8] : Matrix (Fin 2) (Fin 2) ℤ) := by
      ext i j
      fin_cases i <;> fin_cases j <;> rfl
    rw [h1]
    have hdet : (!![2,4;6,8] : Matrix (Fin 2) (Fin 2) ℤ).det = -8 := by
      simp [Matrix.det_fin_two_of]
    rw [is_valid_key, hdet]
    decide

/-- Witness for C2 at the non-square matrix [[1,2]] (validation false) and at
the square matrix [[3,2],[5,7]] (the gcd equivalence). -/
theorem is_valid_key_matrix_spec_witness :
    ((∀ r ∈ ([[1, 2]] : List (List ℤ)), r.length = matCols [[1, 2]]) ∧
      matRows ([[1, 2]] : List (List ℤ)) ≠ matCols [[1, 2]] ∧
      is_valid_key_matrix ([[1, 2]] : List (List ℤ)) = false) ∧
    ((∀ r ∈ ([[3, 2], [5, 7]] : List (List ℤ)), r.length = matCols [[3, 2], [5, 7]]) ∧
      matRows ([[3, 2], [5, 7]] : List (List ℤ)) = matCols [[3, 2], [5, 7]] ∧
      (is_valid_key_matrix [[3, 2], [5, 7]] = true ↔
        Int.gcd ((toMatrix [[3, 2], [5, 7]] (matRows [[3, 2], [5, 7]])).det % 26) 26 = 1)) :=
  ⟨⟨by decide, by decide,
    (is_valid_key_matrix_spec.1 [[1, 2]] (by decide)).1 (by decide)⟩,
   ⟨by decide, by decide,
    (is_valid_key_matrix_spec.1 [[3, 2], [5, 7]] (by decide)).2 (by decide)⟩⟩

/-- C3: the key [[2,3],[3,1]] passes validation (determinant -7, and
-7 mod 26 = 19 is coprime to 26, indeed gcd(-7, 26) = 1 so the scalar
inverse exists mathematically), yet mod_inverse(-7, 26) returns None —
gcd_extended yields -1 rather than 1 on a negative first argument — so
matrix_mod_inverse fails and decrypt raises for this valid key, reaching
the supposedly unreachable failure path. -/
theorem decrypt_neg_det_bug :
    is_valid_key (!![2,3;3,1] : Matrix (Fin 2) (Fin 2) ℤ) = true ∧
    (!![2,3;3,1] : Matrix (Fin 2) (Fin 2) ℤ).det = -7 ∧
    Int.gcd (-7) 26 = 1 ∧
    mod_inverse (-7) 26 = none ∧
    matrix_mod_inverse (!![2,3;3,1] : Matrix (Fin 2) (Fin 2) ℤ) = none ∧
    decrypt (!![2,3;3,1] : Matrix (Fin 2) (Fin 2) ℤ) ['A','B'] = none := by
  have hdet : (!![2,3;3,1] : Matrix (Fin 2) (Fin 2) ℤ).det = -7 := by
    simp [Matrix.det_fin_two_of]
  have hvalid : is_valid_key (!![2,3;3,1] : Matrix (Fin 2) (Fin 2) ℤ) = true := by
    rw [is_valid_key, hdet]
    decide
  have hmi : mod_inverse (-7) 26 = none := by
    have h : (gcd_extended (-7) 26).1 = -1 := by simp [gcd_extended]
    simp [mod_inverse, h]
  have hmmi : matrix_mod_inverse (!![2,3;3,1] : Matrix (Fin 2) (Fin 2) ℤ) = none := by
    unfold matrix_mod_inverse
    rw [hdet, hmi]
  refine ⟨hvalid, hdet, by decide, hmi, hmmi, ?_⟩
  simp only [decrypt, hvalid, if_true, hmmi]

/-- C4 (amended): for a plaintext of ASCII letters and a positive block size
n, the sequence encrypt actually transforms — the concatenation of the
blocks built from the padded-then-encoded plaintext — is exactly
encode(plaintext) right-padded with 23 to the next multiple of n, and every
block is full (no remainder). -/
theorem encrypt_blocks_amended {n : ℕ} (s : List Char) (hn : 0 < n)
    (hs : ∀ c ∈ s, c.isAlpha = true) :
    (create_text_blocks (text_to_numbers (pad_text s n)) n).flatten =
      text_to_numbers s ++
        List.replicate ((n - (text_to_numbers s).length % n) % n) 23 ∧
    ∀ blk ∈ create_text_blocks (text_to_numbers (pad_text s n)) n,
      blk.length = n := by
  have hlen_tn : (text_to_numbers s).length = s.length := by
    rw [text_to_numbers_of_alpha s hs, List.length_map]
  have htn : text_to_numbers (pad_text s n) =
      text_to_numbers s ++ List.replicate ((n - s.length % n) % n) 23 := by
    rw [pad_text, text_to_numbers_append, text_to_numbers_replicate_X]
  have hdvd : n ∣ (text_to_numbers (pad_text s n)).length := by
    rw [htn, List.length_append, List.length_replicate, hlen_tn]
    exact pad_length_dvd s.length n hn
  constructor
  · rw [create_text_blocks_flatten _ n hn hdvd, htn, hlen_tn]
  · exact create_text_blocks_length _ n

/-- Witness for C4 at the plaintext "YES" with block size 2. -/
theorem encrypt_blocks_amended_witness :
    ((0:ℕ) < 2 ∧ (∀ c ∈ (['Y','E','S'] : List Char), c.isAlpha = true)) ∧
    ((create_text_blocks (text_to_numbers (pad_text ['Y','E','S'] 2)) 2).flatten =
      text_to_numbers ['Y','E','S'] ++
        List.replicate ((2 - (text_to_numbers ['Y','E','S']).length % 2) % 2) 23 ∧
    ∀ blk ∈ create_text_blocks (text_to_numbers (pad_text ['Y','E','S'] 2)) 2,
      blk.length = 2) :=
  ⟨⟨by decide, by decide⟩,
   encrypt_blocks_amended ['Y','E','S'] (by decide) (by decide)⟩

/-- C4 is false as stated: with plaintext "A!" and block size 2 the raw
string has even length so encrypt adds no padding, the encoding then yields
the single code [0], and block partitioning drops it entirely — the sequence
actually transformed is empty, not encode("A!") padded to [0, 23]; the
encoded letter 'A' lands in no block. -/
theorem encrypt_blocks_cex :
    (create_text_blocks (text_to_numbers (pad_text ['A', '!'] 2)) 2).flatten =
      ([] : List ℤ) ∧
    text_to_numbers ['A', '!'] ++
      List.replicate ((2 - (text_to_numbers ['A', '!']).length % 2) % 2) 23 =
      [0, 23] ∧
    ([] : List ℤ) ≠ [0, 23] := by
  refine ⟨?_, by decide, by decide⟩
  have h1 : text_to_numbers (pad_text ['A', '!'] 2) = [0] := by decide
  rw [h1]
  have h2 : create_text_blocks [0] 2 = [] := by
    rw [create_text_blocks, dif_neg (by decide)]
  rw [h2]
  rfl

/-- C5 (amended): the backend decoder _nums_to_text reduces every integer
modulo 26 first and therefore never fails and only produces uppercase A-Z
letters; it agrees with cipher.py's numbers_to_text applied to the reduced
values.  cipher.py's numbers_to_text itself performs no reduction (see the
counterexample), so the claim holds of the backend decoder only. -/
theorem backend_nums_to_text_wraps (ns : List ℤ) :
    backend_nums_to_text ns = numbers_to_text (ns.map (fun x => x % 26)) ∧
    (backend_nums_to_text ns).all
      (fun c => decide ('A' ≤ c) && decide (c ≤ 'Z')) = true := by
  constructor
  · simp [backend_nums_to_text, numbers_to_text, List.map_map, Function.comp]
  · rw [List.all_eq_true]
    intro c hc
    rw [backend_nums_to_text, List.mem_map] at hc
    obtain ⟨x, _, rfl⟩ := hc
    have hb : 0 ≤ x % 26 ∧ x % 26 < 26 :=
      ⟨Int.emod_nonneg _ (by norm_num), Int.emod_lt_of_pos _ (by norm_num)⟩
    have hf := decode_char_facts (x % 26) hb.1 hb.2
    rw [Bool.and_eq_true, decide_eq_true_eq, decide_eq_true_eq]
    exact ⟨hf.2.2.2.2.1, hf.2.2.2.2.2⟩

/-- C5 is false as stated of cipher.py's numbers_to_text: 26 maps to
chr(26 + 65) = '[', not to the letter 'A' of 26 mod 26; the backend decoder
does wrap. -/
theorem numbers_to_text_no_wrap_cex :
    numbers_to_text [26] = ['['] ∧ (['['] : List Char) ≠ ['A'] ∧
    backend_nums_to_text [26] = ['A'] :=
  ⟨by decide, by decide, by decide⟩

/-- C6 (amended): on a string of ASCII characters, text_to_numbers
uppercases, drops exactly the non-letters (nothing is substituted) and maps
each remaining letter via A=0..Z=25, so every output lies in [0, 25].  On
non-ASCII input the claim fails because Python's isalpha also keeps every
other Unicode letter (see the counterexample). -/
theorem text_to_numbers_ascii (s : List Char) (h : ∀ c ∈ s, c.toNat < 128) :
    text_to_numbers s = (s.filter (fun c => c.isAlpha)).map
      (fun c => ((c.toUpper.toNat : ℤ) - 65)) ∧
    (text_to_numbers s).all
      (fun x => decide ((0:ℤ) ≤ x) && decide (x ≤ 25)) = true := by
  have h1 : text_to_numbers s = (s.filter (fun c => c.isAlpha)).map
      (fun c => ((c.toUpper.toNat : ℤ) - 65)) := by
    induction s with
    | nil => rfl
    | cons c cs ih =>
      have hih := ih (fun d hd => h d (List.mem_cons_of_mem c hd))
      by_cases hc : c.isAlpha = true
      · have hf := alpha_char_facts c hc
        rw [text_to_numbers_cons_keep c cs hf.1 hf.2.1, hih, List.filter_cons]
        simp only [hc, if_true, List.map_cons, hf.2.2.2.2]
      · have hcf : c.isAlpha = false := by
          revert hc
          cases c.isAlpha <;> simp
        have hf := nonalpha_char_facts c (h c (List.mem_cons_self c cs)) hcf
        rw [text_to_numbers_cons_drop c cs (by rw [hf.1]; exact hf.2), hih,
          List.filter_cons]
        simp only [hcf, if_false, Bool.false_eq_true]
  refine ⟨h1, ?_⟩
  rw [List.all_eq_true]
  intro x hx
  rw [h1, List.mem_map] at hx
  obtain ⟨c, hcmem, rfl⟩ := hx
  have hcalpha : c.isAlpha = true := by
    have := (List.mem_filter.mp hcmem).2
    simpa using this
  have hf := alpha_char_facts c hcalpha
  have hb1 := hf.2.2.1
  have hb2 := hf.2.2.2.1
  rw [hf.2.2.2.2] at hb1 hb2
  rw [Bool.and_eq_true, decide_eq_true_eq, decide_eq_true_eq]
  omega

/-- Witness for C6 at the ASCII string "Ab3 z!". -/
theorem text_to_numbers_ascii_witness :
    (∀ c ∈ (['A','b','3',' ','z','!'] : List Char), c.toNat < 128) ∧
    (text_to_numbers ['A','b','3',' ','z','!'] =
      ((['A','b','3',' ','z','!'] : List Char).filter (fun c => c.isAlpha)).map
        (fun c => ((c.toUpper.toNat : ℤ) - 65)) ∧
     (text_to_numbers ['A','b','3',' ','z','!']).all
        (fun x => decide ((0:ℤ) ≤ x) && decide (x ≤ 25)) = true) :=
  ⟨by decide, text_to_numbers_ascii _ (by decide)⟩

/-- C6 is false as stated: 'é' is not an A-Z letter yet encode keeps it
(Python's isalpha is true on it), mapping it to ord('É') - ord('A') = 136,
which lies outside [0, 25]. -/
theorem text_to_numbers_unicode_cex :
    text_to_numbers ['é'] = [136] ∧ ¬ ((136:ℤ) ≤ 25) :=
  ⟨by decide, by decide⟩

/-- C7 (amended): for every valid key matrix with positive integer
determinant, the inverse-key computation mod_inverse(det, 26) * adjugate
mod 26 succeeds and the product (K @ invKey) mod 26 is the identity matrix.
For valid keys with negative determinant the computation returns None
instead (see the counterexample), so the claim is restricted to positive
determinants. -/
theorem matrix_mod_inverse_identity {n : ℕ} (K : Matrix (Fin n) (Fin n) ℤ)
    (hv : is_valid_key K = true) (hd : 0 < K.det) :
    (matrix_mod_inverse K).map
      (fun invK => (K * invK).map (fun x => x % 26)) = some 1 := by
  obtain ⟨invK, hinvK⟩ : ∃ invK, matrix_mod_inverse K = some invK := by
    have := matrix_mod_inverse_isSome K hv hd
    rcases hmi : matrix_mod_inverse K with _ | iv
    · rw [hmi] at this
      exact absurd this (by simp)
    · exact ⟨iv, rfl⟩
  rw [hinvK, Option.map_some']
  exact congrArg some (matrix_mod_inverse_mul_emod K invK hinvK)

/-- Witness for C7 at the demo key [[3,2],[5,7]]. -/
theorem matrix_mod_inverse_identity_witness :
    (is_valid_key (!![3,2;5,7] : Matrix (Fin 2) (Fin 2) ℤ) = true ∧
      (0:ℤ) < (!![3,2;5,7] : Matrix (Fin 2) (Fin 2) ℤ).det) ∧
    (matrix_mod_inverse (!![3,2;5,7] : Matrix (Fin 2) (Fin 2) ℤ)).map
      (fun invK => ((!![3,2;5,7] : Matrix (Fin 2) (Fin 2) ℤ) * invK).map
        (fun x => x % 26)) = some 1 :=
  ⟨⟨valid_key_32, by rw [det_32]; decide⟩,
   matrix_mod_inverse_identity !![3,2;5,7] valid_key_32 (by rw [det_32]; decide)⟩

/-- C7 is false as stated: [[1,1],[2,1]] is a valid key (determinant -1,
and -1 mod 26 = 25 is coprime to 26) but the source's inverse-key
computation returns None on it, so no computed inverse key exists at all. -/
theorem matrix_mod_inverse_identity_cex :
    is_valid_key (!![1,1;2,1] : Matrix (Fin 2) (Fin 2) ℤ) = true ∧
    ¬ ∃ invK, matrix_mod_inverse (!![1,1;2,1] : Matrix (Fin 2) (Fin 2) ℤ) =
      some invK := by
  have hdet : (!![1,1;2,1] : Matrix (Fin 2) (Fin 2) ℤ).det = -1 := by
    simp [Matrix.det_fin_two_of]
  constructor
  · rw [is_valid_key, hdet]
    decide
  · have hmi : mod_inverse (-1) 26 = none := by
      have h : (gcd_extended (-1) 26).1 = -1 := by simp [gcd_extended]
      simp [mod_inverse, h]
    have hnone : matrix_mod_inverse (!![1,1;2,1] : Matrix (Fin 2) (Fin 2) ℤ) = none := by
      unfold matrix_mod_inverse
      rw [hdet, hmi]
    rw [hnone]
    simp

/-- C8 (amended): the "HELLO" fixture with key [[3,2],[5,7]]: the plaintext
encodes to [7,4,11,11,14], pads to blocks [[7,4],[11,11],[14,23]], the first
block transforms to ((3*7+2*4) mod 26, (5*7+7*4) mod 26) = (3, 11) — 'D' and
'L' — and the full ciphertext is "DLDCKX", beginning with "DL". -/
theorem hello_fixture :
    text_to_numbers ['H','E','L','L','O'] = [7, 4, 11, 11, 14] ∧
    create_text_blocks (text_to_numbers (pad_text ['H','E','L','L','O'] 2)) 2 =
      [[7, 4], [11, 11], [14, 23]] ∧
    matVecMod !![3,2;5,7] [7, 4] = [(3*7+2*4 : ℤ) % 26, (5*7+7*4 : ℤ) % 26] ∧
    ((3*7+2*4 : ℤ) % 26 = 3 ∧ (5*7+7*4 : ℤ) % 26 = 11) ∧
    encrypt !![3,2;5,7] ['H','E','L','L','O'] = some ['D','L','D','C','K','X'] := by
  refine ⟨by decide, ?_, ?_, ⟨by decide, by decide⟩, hello_encrypt⟩
  · rw [hello_padded_codes]
    exact hello_blocks
  · rw [matVecMod_32_HE]
    decide

/-- C8 is false as stated: the first component of the first encrypted block
is (3*7+2*4) mod 26 = 29 mod 26 = 3 ('D'), not 11 ('L'), so the ciphertext
"DLDCKX" does not begin with "LL". -/
theorem hello_fixture_cex :
    (3*7+2*4 : ℤ) % 26 = 3 ∧ ((3:ℤ) ≠ 11) ∧
    matVecMod !![3,2;5,7] [7, 4] = [3, 11] ∧
    encrypt !![3,2;5,7] ['H','E','L','L','O'] = some ['D','L','D','C','K','X'] ∧
    (['D','L','D','C','K','X'] : List Char).take 2 ≠ ['L', 'L'] :=
  ⟨by decide, by decide, matVecMod_32_HE, hello_encrypt, by decide⟩

/-- Any sampling outcome routes generate_random_key_matrix either through a
sample that passed validation or through the fallback; if the fallback is
valid the result always is. -/
theorem generate_valid_of_fallback {size : ℕ}
    (hf : is_valid_key (fallback_key_matrix size) = true) :
    ∀ sample : ℕ → Matrix (Fin size) (Fin size) ℤ,
      is_valid_key (generate_random_key_matrix size sample) = true := by
  intro sample
  unfold generate_random_key_matrix
  cases hfind : (List.range 100).find? (fun i => is_valid_key (sample i)) with
  | none => exact hf
  | some i =>
    show is_valid_key (sample i) = true
    have h := List.find?_some hfind
    simpa using h

/-- C9: for n in {2, 3, 4} and every outcome of the random sampling oracle —
including exhaustion of all 100 attempts, which routes to the deterministic
fallback — the generated key matrix passes validation. -/
theorem generate_random_key_matrix_valid :
    (∀ sample : ℕ → Matrix (Fin 2) (Fin 2) ℤ,
      is_valid_key (generate_random_key_matrix 2 sample) = true) ∧
    (∀ sample : ℕ → Matrix (Fin 3) (Fin 3) ℤ,
      is_valid_key (generate_random_key_matrix 3 sample) = true) ∧
    (∀ sample : ℕ → Matrix (Fin 4) (Fin 4) ℤ,
      is_valid_key (generate_random_key_matrix 4 sample) = true) := by
  refine ⟨generate_valid_of_fallback ?_, generate_valid_of_fallback ?_,
    generate_valid_of_fallback ?_⟩
  · unfold fallback_key_matrix
    rw [if_pos rfl]
    show is_valid_key (toMatrix [[3, 2], [5, 7]] 2) = true
    have h1 : toMatrix [[3, 2], [5, 7]] 2 = (!![3,2;5,7] : Matrix (Fin 2) (Fin 2) ℤ) := by
      ext i j
      fin_cases i <;> fin_cases j <;> rfl
    rw [h1]
    exact valid_key_32
  · unfold fallback_key_matrix
    rw [if_neg (by decide), if_pos rfl]
    show is_valid_key (toMatrix [[6,24,1],[13,16,10],[20,17,15]] 3) = true
    have h1 : toMatrix [[6,24,1],[13,16,10],[20,17,15]] 3 =
        (!![6,24,1;13,16,10;20,17,15] : Matrix (Fin 3) (Fin 3) ℤ) := by
      ext i j
      fin_cases i <;> fin_cases j <;> rfl
    rw [h1, is_valid_key]
    have hdet : (!![6,24,1;13,16,10;20,17,15] : Matrix (Fin 3) (Fin 3) ℤ).det = 441 := by
      simp [Matrix.det_fin_three]
    rw [hdet]
    decide
  · unfold fallback_key_matrix
    rw [if_neg (by decide), if_neg (by decide), is_valid_key]
    have hdet : (Matrix.diagonal (fun i : Fin 4 =>
        if (i:ℕ) = 0 then (3:ℤ) else if (i:ℕ) = 1 then 5 else 1)).det = 15 := by
      rw [Matrix.det_diagonal]
      simp [Fin.prod_univ_four]
      decide
    rw [hdet]
    decide

/-- C10: for every valid key of positive side n and every input string,
encrypt succeeds, every ciphertext character is an uppercase A-Z letter, and
the ciphertext length is a multiple of n. -/
theorem encrypt_output_spec {n : ℕ} (K : Matrix (Fin n) (Fin n) ℤ)
    (s : List Char) (_hn : 0 < n) (hv : is_valid_key K = true) :
    (encrypt K s).isSome = true ∧
    (∀ c ∈ (encrypt K s).getD [], 'A' ≤ c ∧ c ≤ 'Z') ∧
    n ∣ ((encrypt K s).getD []).length := by
  have henc : encrypt K s = some (numbers_to_text
      ((create_text_blocks (text_to_numbers (pad_text s n)) n).map
        (matVecMod K)).flatten) := by
    simp only [encrypt, hv, if_true]
  have hebmem : ∀ x ∈ ((create_text_blocks (text_to_numbers (pad_text s n)) n).map
      (matVecMod K)).flatten, 0 ≤ x ∧ x < 26 := by
    intro x hx
    rw [List.mem_flatten] at hx
    obtain ⟨blk, hblk, hxblk⟩ := hx
    rw [List.mem_map] at hblk
    obtain ⟨b0, _, rfl⟩ := hblk
    exact matVecMod_mem K b0 x hxblk
  have heblen : ∀ blk ∈ (create_text_blocks (text_to_numbers (pad_text s n)) n).map
      (matVecMod K), blk.length = n := by
    intro blk hblk
    rw [List.mem_map] at hblk
    obtain ⟨b0, _, rfl⟩ := hblk
    exact matVecMod_length K b0
  rw [henc]
  refine ⟨rfl, ?_, ?_⟩
  · simp only [Option.getD_some]
    exact numbers_to_text_mem _ hebmem
  · simp only [Option.getD_some]
    rw [numbers_to_text, List.length_map]
    exact flatten_length_dvd _ n heblen

/-- Witness for C10 at the demo key and the mixed input "HI!". -/
theorem encrypt_output_spec_witness :
    ((0:ℕ) < 2 ∧ is_valid_key (!![3,2;5,7] : Matrix (Fin 2) (Fin 2) ℤ) = true) ∧
    ((encrypt !![3,2;5,7] ['H','I','!']).isSome = true ∧
     (∀ c ∈ (encrypt !![3,2;5,7] ['H','I','!']).getD [], 'A' ≤ c ∧ c ≤ 'Z') ∧
     2 ∣ ((encrypt !![3,2;5,7] ['H','I','!']).getD []).length) :=
  ⟨⟨by decide, valid_key_32⟩,
   encrypt_output_spec !![3,2;5,7] ['H','I','!'] (by decide) valid_key_32⟩

end HillCipherSpec
